import Mathlib

/-!
Verification of the go-linq sequence-query library (package `linq`, file `linq/linq.go`).

The library wraps a Go slice in a generic `Query[T]` structure and offers
chainable transformations (filter, project, sort, set operations, pagination)
and terminal operations (aggregates, conversions).  This development embeds the
package shallowly:

* the value-level behaviour of every operation is embedded over `List T`
  (a Go slice read through `range` is exactly its list of elements);
* Go `int` values appear as `Int`; Go slicing expressions `s[n:]` / `s[:n]`,
  which panic on a negative index, are embedded as `Option`-returning
  functions (`none` models the run-time panic);
* `sort.Slice` from the Go standard library (which `OrderBy` delegates to) is
  embedded as the pattern-defeating quicksort that the standard library runs
  (`src/sort/zsortfunc.go`), operating on an array by swaps;
* a small slice/heap memory model (`SliceModel`) embeds the aliasing behaviour
  of Go slices — offset, length and capacity into a shared backing array, and
  `append` writing in place whenever spare capacity suffices — which is what
  decides the frame-effect claim about `Union`.
-/

namespace GoLinq

/-- Go: `type Query[T any] struct { source []T }` — the main LINQ structure,
read at the value level: `source` is the sequence of elements of the slice. -/
structure Query (T : Type) where
  source : List T
deriving DecidableEq

/-- Go: `func From[T any](source []T) Query[T]` — wraps a slice. -/
def From {T : Type} (source : List T) : Query T :=
  ⟨source⟩

/-- Go: `type LogicalOperator int` — an integer-backed enumeration, so values
other than the two declared constants are representable. -/
abbrev LogicalOperator := Int

/-- Go: `And LogicalOperator = iota` (value 0). -/
def And : LogicalOperator := 0

/-- Go: `Or` (value 1 by `iota`). -/
def Or : LogicalOperator := 1

/-- Go: `type PredicateGroup[T any] struct { Predicates []func(T) bool;
LogicalOperator LogicalOperator }`. -/
structure PredicateGroup (T : Type) where
  Predicates : List (T → Bool)
  LogicalOperator : LogicalOperator

variable {T : Type}

/-- The per-item body of the loop in `Query.WhereGroup`: for `And` the item is
included unless some predicate rejects it (`include = true`, reset to `false`
and break on the first failing predicate); for `Or` it is included as soon as
one predicate accepts it; for any other operator value `include` keeps its
initial value `false`. -/
def includeItem (group : PredicateGroup T) (item : T) : Bool :=
  if group.LogicalOperator = And then
    group.Predicates.all fun pred => pred item
  else if group.LogicalOperator = Or then
    group.Predicates.any fun pred => pred item
  else
    false

/-- Go: `func (q Query[T]) WhereGroup(group PredicateGroup[T]) Query[T]` —
appends to `result` exactly the items the loop body includes, in order. -/
def Query.WhereGroup (q : Query T) (group : PredicateGroup T) : Query T :=
  ⟨q.source.filter (includeItem group)⟩

/-- Go: `func (q Query[T]) Where(predicate func(T) bool) Query[T]` — delegates
to `WhereGroup` with a single-predicate `And` group. -/
def Query.Where (q : Query T) (predicate : T → Bool) : Query T :=
  q.WhereGroup ⟨[predicate], And⟩

/-- Go: `func (q Query[T]) ToSlice() []T` — returns `q.source` itself. -/
def Query.ToSlice (q : Query T) : List T :=
  q.source

/-- Go: `func (q Query[T]) Any(predicate func(T) bool) bool`. -/
def Query.Any (q : Query T) (predicate : T → Bool) : Bool :=
  q.source.any predicate

/-- Go: `func (q Query[T]) All(predicate func(T) bool) bool`. -/
def Query.All (q : Query T) (predicate : T → Bool) : Bool :=
  q.source.all predicate

/-- Go: `func (q Query[T]) First(predicate func(T) bool) (T, bool)` — first
match with `true`, otherwise the zero value (`default`) with `false`. -/
def Query.First [Inhabited T] (q : Query T) (predicate : T → Bool) : T × Bool :=
  match q.source.find? predicate with
  | some item => (item, true)
  | none => (default, false)

/-- Go: `func (q Query[T]) Count() int`. -/
def Query.Count (q : Query T) : Int :=
  q.source.length

/-- The loop of `Query.Distinct`: keep `item` only when no already-kept
element `r` satisfies `equal item r`; kept items are appended in order. -/
def distinctLoop (equal : T → T → Bool) : List T → List T → List T
  | result, [] => result
  | result, item :: rest =>
    if result.any fun r => equal item r then
      distinctLoop equal result rest
    else
      distinctLoop equal (result ++ [item]) rest

/-- Go: `func (q Query[T]) Distinct(equal func(a, b T) bool) Query[T]`. -/
def Query.Distinct (q : Query T) (equal : T → T → Bool) : Query T :=
  ⟨distinctLoop equal [] q.source⟩

/-- Go `int` is a 64-bit machine integer; `+` wraps around. -/
def wrap64 (x : Int) : Int :=
  (x + 2 ^ 63) % 2 ^ 64 - 2 ^ 63

/-- Go: `func (q Query[T]) Sum(selector func(T) int) int` — `sum := 0` then
`sum += selector(item)` over the slice (64-bit wrapping addition). -/
def Query.Sum (q : Query T) (selector : T → Int) : Int :=
  q.source.foldl (fun sum item => wrap64 (sum + selector item)) 0

/-- The loop of `Query.Min`: `v := selector(item); if v < min { min = v }`. -/
def minLoop (selector : T → Int) : Int → List T → Int
  | m, [] => m
  | m, item :: rest =>
    minLoop selector (if selector item < m then selector item else m) rest

/-- Go: `func (q Query[T]) Min(selector func(T) int) int` — `0` for an empty
slice, otherwise the loop starting from `selector(q.source[0])`. -/
def Query.Min (q : Query T) (selector : T → Int) : Int :=
  match q.source with
  | [] => 0
  | x :: rest => minLoop selector (selector x) rest

/-- The loop of `Query.Max`: `v := selector(item); if v > max { max = v }`. -/
def maxLoop (selector : T → Int) : Int → List T → Int
  | m, [] => m
  | m, item :: rest =>
    maxLoop selector (if selector item > m then selector item else m) rest

/-- Go: `func (q Query[T]) Max(selector func(T) int) int` — `0` for an empty
slice, otherwise the loop starting from `selector(q.source[0])`. -/
def Query.Max (q : Query T) (selector : T → Int) : Int :=
  match q.source with
  | [] => 0
  | x :: rest => maxLoop selector (selector x) rest

/-- Go slicing `s[n:]` at the value level: defined for `0 ≤ n ≤ len(s)`,
otherwise the program panics with a slice-bounds error (`none`). -/
def goSliceFrom (xs : List T) (n : Int) : Option (List T) :=
  if 0 ≤ n ∧ n ≤ xs.length then some (xs.drop n.toNat) else none

/-- Go slicing `s[:n]` at the value level: defined for `0 ≤ n ≤ len(s)`,
otherwise the program panics with a slice-bounds error (`none`). -/
def goSliceTo (xs : List T) (n : Int) : Option (List T) :=
  if 0 ≤ n ∧ n ≤ xs.length then some (xs.take n.toNat) else none

/-- Go: `func (q Query[T]) Skip(n int) Query[T]` — `if n >= len(q.source)`
return an empty query, else return `Query{source: q.source[n:]}`.  The slicing
expression panics (`none`) when `n` is negative. -/
def Query.Skip (q : Query T) (n : Int) : Option (Query T) :=
  if n ≥ (q.source.length : Int) then some (From [])
  else (goSliceFrom q.source n).map From

/-- Go: `func (q Query[T]) Take(n int) Query[T]` — clamp `n` down to the
length when it exceeds it, then return `Query{source: q.source[:n]}`.  The
slicing expression panics (`none`) when `n` is negative. -/
def Query.Take (q : Query T) (n : Int) : Option (Query T) :=
  let m := if n > (q.source.length : Int) then (q.source.length : Int) else n
  (goSliceTo q.source m).map From

/-- Go: `func (q Query[T]) Reverse() Query[T]` — `result[i] =
q.source[len-1-i]` into a fresh slice. -/
def Query.Reverse (q : Query T) : Query T :=
  ⟨q.source.reverse⟩

/-- Go: `func (q Query[T]) ElementAt(index int) (T, bool)` — zero value and
`false` outside `[0, len)`. -/
def Query.ElementAt [Inhabited T] (q : Query T) (index : Int) : T × Bool :=
  if index < 0 ∨ index ≥ (q.source.length : Int) then (default, false)
  else (q.source.getD index.toNat default, true)

/-- Go: `func (q Query[T]) DefaultIfEmpty(defaultValue T) Query[T]`. -/
def Query.DefaultIfEmpty (q : Query T) (defaultValue : T) : Query T :=
  if q.source.isEmpty then ⟨[defaultValue]⟩ else q

/-- Go: `func (q Query[T]) Aggregate(seed T, aggregator func(T, T) T) T` —
a left fold starting from `seed`. -/
def Query.Aggregate (q : Query T) (seed : T) (aggregator : T → T → T) : T :=
  q.source.foldl aggregator seed

/-- The loop of `Query.Except` with its labelled `continue Outer`: an item of
the receiver is skipped as soon as some `o` in `other` satisfies
`equal item o`, and appended to `result` otherwise. -/
def exceptLoop (equal : T → T → Bool) (other : List T) : List T → List T
  | [] => []
  | item :: rest =>
    if other.any fun o => equal item o then
      exceptLoop equal other rest
    else
      item :: exceptLoop equal other rest

/-- Go: `func (q Query[T]) Except(other []T, equal func(a, b T) bool) Query[T]`
— the loop above, then `From(result)`: no deduplication afterwards. -/
def Query.Except (q : Query T) (other : List T) (equal : T → T → Bool) : Query T :=
  From (exceptLoop equal other q.source)

/-- The loop of `Query.Intersect`: an item of the receiver is appended once as
soon as some `o` in `other` satisfies `equal item o` (inner `break`). -/
def intersectLoop (equal : T → T → Bool) (other : List T) : List T → List T
  | [] => []
  | item :: rest =>
    if other.any fun o => equal item o then
      item :: intersectLoop equal other rest
    else
      intersectLoop equal other rest

/-- Go: `func (q Query[T]) Intersect(other []T, equal func(a, b T) bool)
Query[T]` — the loop above, then `From(result).Distinct(equal)`. -/
def Query.Intersect (q : Query T) (other : List T) (equal : T → T → Bool) : Query T :=
  (From (intersectLoop equal other q.source)).Distinct equal

/-- Go: `func (q Query[T]) Union(other []T, equal func(a, b T) bool) Query[T]`
— value level of `append(q.source, other...)` then `From(combined).Distinct`.
(The aliasing behaviour of the `append` is treated in `SliceModel` below.) -/
def Query.Union (q : Query T) (other : List T) (equal : T → T → Bool) : Query T :=
  (From (q.source ++ other)).Distinct equal

/-- Go: `func Select[T any, R any](q Query[T], selector func(T) R) Query[R]`. -/
def Select {R : Type} (q : Query T) (selector : T → R) : Query R :=
  ⟨q.source.map selector⟩

end GoLinq

namespace GoLinq

variable {T : Type}

/-!
Model of the Go standard library sort used by `Query.OrderBy`:
`sort.Slice(x, less)` runs the pattern-defeating quicksort of
`src/sort/zsortfunc.go` (Go 1.19+) over the slice, with
`limit := bits.Len(uint(n))`.  The sorter operates on the array purely
through `Less` (comparison of two positions) and `Swap`, embedded here as
`aget` and `aswap` over a Lean `Array`.  Loops whose termination argument
is not structural receive an explicit fuel argument; every entry point
passes fuel that exceeds the number of iterations the Go code can perform,
so the embedding computes the same result.
-/

/-- Read of position `i` of the array being sorted (in bounds whenever the
Go code reads it; `default` is never reached on the traced executions). -/
def aget [Inhabited T] (xs : Array T) (i : Nat) : T :=
  xs.getD i default

/-- `data.Swap(i, j)` of `sort.Slice`. -/
def aswap (xs : Array T) (i j : Nat) : Array T :=
  xs.swap! i j

/-- Helper for `bitsLen`, structurally recursive on fuel. -/
def bitsLenAux : Nat → Nat → Nat
  | 0, _ => 0
  | fuel + 1, n => if n = 0 then 0 else bitsLenAux fuel (n / 2) + 1

/-- Go `bits.Len(n)`: the number of bits needed to represent `n`. -/
def bitsLen (n : Nat) : Nat :=
  bitsLenAux (n + 1) n

/-- One step of the `xorshift` random generator of `sort`:
`r ^= r << 13; r ^= r >> 7; r ^= r << 17` on 64 bits. -/
def xorshiftNext (r : Nat) : Nat :=
  let r1 := (r ^^^ (r <<< 13)) % 2 ^ 64
  let r2 := (r1 ^^^ (r1 >>> 7)) % 2 ^ 64
  (r2 ^^^ (r2 <<< 17)) % 2 ^ 64

/-- Go `sort`: `insertionSort` inner loop — shift `x[j]` left while it is
less than its left neighbour and `j > a`. -/
def insertionInner [Inhabited T] (less : T → T → Bool) (a : Nat) :
    Nat → Array T → Nat → Array T
  | 0, xs, _ => xs
  | fuel + 1, xs, j =>
    if a < j ∧ less (aget xs j) (aget xs (j - 1)) then
      insertionInner less a fuel (aswap xs j (j - 1)) (j - 1)
    else xs

/-- Go `sort`: `insertionSort` outer loop over `i` from `a+1` to `b-1`. -/
def insertionOuter [Inhabited T] (less : T → T → Bool) (a b : Nat) :
    Nat → Array T → Nat → Array T
  | 0, xs, _ => xs
  | fuel + 1, xs, i =>
    if i < b then insertionOuter less a b fuel (insertionInner less a (i + 1) xs i) (i + 1)
    else xs

/-- Go `sort`: `func insertionSort(data lessSwap, a, b int)`. -/
def insertionSort [Inhabited T] (less : T → T → Bool) (xs : Array T) (a b : Nat) : Array T :=
  insertionOuter less a b (b + 1) xs (a + 1)

/-- Go `sort`: `func siftDown(data lessSwap, lo, hi, first int)` with
`root := lo`; fuel bounds the descent (the heap depth). -/
def siftDown [Inhabited T] (less : T → T → Bool) (first hi : Nat) :
    Nat → Array T → Nat → Array T
  | 0, xs, _ => xs
  | fuel + 1, xs, root =>
    if 2 * root + 1 ≥ hi then xs
    else
      let child0 := 2 * root + 1
      let child :=
        if child0 + 1 < hi ∧ less (aget xs (first + child0)) (aget xs (first + child0 + 1)) then
          child0 + 1
        else child0
      if less (aget xs (first + root)) (aget xs (first + child)) then
        siftDown less first hi fuel (aswap xs (first + root) (first + child)) child
      else xs

/-- Go `sort` `heapSort`: the build-heap loop `for i := (hi-1)/2; i >= 0; i--`. -/
def heapInitLoop [Inhabited T] (less : T → T → Bool) (first hi : Nat) :
    Nat → Array T → Nat → Array T
  | 0, xs, _ => xs
  | fuel + 1, xs, i =>
    let xs2 := siftDown less first hi (hi + 1) xs i
    if i = 0 then xs2 else heapInitLoop less first hi fuel xs2 (i - 1)

/-- Go `sort` `heapSort`: the pop loop `for i := hi - 1; i >= 0; i--` —
swap the maximum to the end and sift the new root down. -/
def heapExtractLoop [Inhabited T] (less : T → T → Bool) (first : Nat) :
    Nat → Array T → Nat → Array T
  | 0, xs, _ => xs
  | fuel + 1, xs, i =>
    let xs2 := siftDown less first i (i + 1) (aswap xs first (first + i)) 0
    if i = 0 then xs2 else heapExtractLoop less first fuel xs2 (i - 1)

/-- Go `sort`: `func heapSort(data lessSwap, a, b int)`. -/
def heapSort [Inhabited T] (less : T → T → Bool) (xs : Array T) (a b : Nat) : Array T :=
  let first := a
  let hi := b - a
  let xs2 := heapInitLoop less first hi ((hi - 1) / 2 + 1) xs ((hi - 1) / 2)
  if hi = 0 then xs2 else heapExtractLoop less first hi xs2 (hi - 1)

/-- Go `sort`: `func breakPatterns(data lessSwap, a, b int)` — swaps three
positions around the middle with pseudo-random ones (xorshift seeded with
the length, modulus the next power of two). -/
def breakPatterns [Inhabited T] (xs : Array T) (a b : Nat) : Array T :=
  let length := b - a
  if length ≥ 8 then
    let modulus := 2 ^ bitsLen length
    let idx := a + length / 4 * 2 - 1
    let rand1 := xorshiftNext length
    let other1 := let o := rand1 % modulus; if o ≥ length then o - length else o
    let xs1 := aswap xs (idx - 1) (a + other1)
    let rand2 := xorshiftNext rand1
    let other2 := let o := rand2 % modulus; if o ≥ length then o - length else o
    let xs2 := aswap xs1 idx (a + other2)
    let rand3 := xorshiftNext rand2
    let other3 := let o := rand3 % modulus; if o ≥ length then o - length else o
    aswap xs2 (idx + 1) (a + other3)
  else xs

/-- The three sortedness hints of Go `sort` (`unknownHint`,
`increasingHint`, `decreasingHint`). -/
inductive SortedHint
  | unknown
  | increasing
  | decreasing
deriving DecidableEq

/-- Go `sort`: `order2` — return the two positions in increasing element
order, counting a swap when they are exchanged. -/
def order2 [Inhabited T] (less : T → T → Bool) (xs : Array T) (a b swaps : Nat) :
    Nat × Nat × Nat :=
  if less (aget xs b) (aget xs a) then (b, a, swaps + 1) else (a, b, swaps)

/-- Go `sort`: `median` of three positions via three `order2` calls. -/
def median [Inhabited T] (less : T → T → Bool) (xs : Array T) (a b c swaps : Nat) :
    Nat × Nat :=
  let (a1, b1, s1) := order2 less xs a b swaps
  let (b2, _, s2) := order2 less xs b1 c s1
  let (_, b3, s3) := order2 less xs a1 b2 s2
  (b3, s3)

/-- Go `sort`: `medianAdjacent` — median of `a-1, a, a+1`. -/
def medianAdjacent [Inhabited T] (less : T → T → Bool) (xs : Array T) (a swaps : Nat) :
    Nat × Nat :=
  median less xs (a - 1) a (a + 1) swaps

/-- Go `sort`: `func choosePivot(data lessSwap, a, b int) (pivot int, hint
sortedHint)` — median (or ninther for length at least 50) of positions at
the quartiles; the swap count decides the hint (`0` increasing, `12`
decreasing, otherwise unknown). -/
def choosePivot [Inhabited T] (less : T → T → Bool) (xs : Array T) (a b : Nat) :
    Nat × SortedHint :=
  let l := b - a
  let i0 := a + l / 4 * 1
  let j0 := a + l / 4 * 2
  let k0 := a + l / 4 * 3
  let (j, swaps) :=
    if l ≥ 8 then
      if l ≥ 50 then
        let (i1, s1) := medianAdjacent less xs i0 0
        let (j1, s2) := medianAdjacent less xs j0 s1
        let (k1, s3) := medianAdjacent less xs k0 s2
        median less xs i1 j1 k1 s3
      else
        median less xs i0 j0 k0 0
    else (j0, 0)
  if swaps = 0 then (j, SortedHint.increasing)
  else if swaps = 12 then (j, SortedHint.decreasing)
  else (j, SortedHint.unknown)

/-- Go `sort`: `reverseRange` loop — swap `i` and `j` moving inwards. -/
def reverseRangeLoop : Nat → Array T → Nat → Nat → Array T
  | 0, xs, _, _ => xs
  | fuel + 1, xs, i, j =>
    if i < j then reverseRangeLoop fuel (aswap xs i j) (i + 1) (j - 1) else xs

/-- Go `sort`: `func reverseRange(data lessSwap, a, b int)`. -/
def reverseRange (xs : Array T) (a b : Nat) : Array T :=
  reverseRangeLoop (b + 1) xs a (b - 1)

/-- Go `sort` `partialInsertionSort`: advance `i` while the adjacent pair is
in order (`i < b && !Less(i, i-1)`). -/
def pisScan [Inhabited T] (less : T → T → Bool) (b : Nat) (xs : Array T) : Nat → Nat → Nat
  | 0, i => i
  | fuel + 1, i =>
    if i < b ∧ ¬ less (aget xs i) (aget xs (i - 1)) then pisScan less b xs fuel (i + 1) else i

/-- Go `sort` `partialInsertionSort`: shift the smaller element of the pair
to the left (`for j := i - 1; j >= 1; j--`, breaking when in order). -/
def pisShiftLeft [Inhabited T] (less : T → T → Bool) : Nat → Array T → Nat → Array T
  | 0, xs, _ => xs
  | fuel + 1, xs, j =>
    if 1 ≤ j ∧ less (aget xs j) (aget xs (j - 1)) then
      pisShiftLeft less fuel (aswap xs j (j - 1)) (j - 1)
    else xs

/-- Go `sort` `partialInsertionSort`: shift the greater element of the pair
to the right (`for j := i + 1; j < b; j++`, breaking when in order). -/
def pisShiftRight [Inhabited T] (less : T → T → Bool) (b : Nat) : Nat → Array T → Nat → Array T
  | 0, xs, _ => xs
  | fuel + 1, xs, j =>
    if j < b ∧ less (aget xs j) (aget xs (j - 1)) then
      pisShiftRight less b fuel (aswap xs j (j - 1)) (j + 1)
    else xs

/-- Go `sort` `partialInsertionSort`: the main loop, at most `maxSteps = 5`
out-of-order adjacent pairs are repaired; returns the array and whether the
range ended up sorted.  Arrays shorter than `shortestShifting = 50` give up
without shifting. -/
def pisLoop [Inhabited T] (less : T → T → Bool) (a b : Nat) :
    Nat → Array T → Nat → Array T × Bool
  | 0, xs, _ => (xs, false)
  | steps + 1, xs, i =>
    let i2 := pisScan less b xs (b + 1) i
    if i2 = b then (xs, true)
    else if b - a < 50 then (xs, false)
    else
      let xs1 := aswap xs i2 (i2 - 1)
      let xs2 := if i2 - a ≥ 2 then pisShiftLeft less i2 xs1 (i2 - 1) else xs1
      let xs3 := if b - i2 ≥ 2 then pisShiftRight less b (b + 1) xs2 (i2 + 1) else xs2
      pisLoop less a b steps xs3 i2

/-- Go `sort`: `func partialInsertionSort(data lessSwap, a, b int) bool`. -/
def partialInsertionSort [Inhabited T] (less : T → T → Bool) (xs : Array T) (a b : Nat) :
    Array T × Bool :=
  pisLoop less a b 5 xs (a + 1)

/-- Go `sort` `partition`: `for i <= j && data.Less(i, a) { i++ }`. -/
def partLeftScan [Inhabited T] (less : T → T → Bool) (xs : Array T) (a j : Nat) :
    Nat → Nat → Nat
  | 0, i => i
  | fuel + 1, i =>
    if i ≤ j ∧ less (aget xs i) (aget xs a) then partLeftScan less xs a j fuel (i + 1) else i

/-- Go `sort` `partition`: `for i <= j && !data.Less(j, a) { j-- }`. -/
def partRightScan [Inhabited T] (less : T → T → Bool) (xs : Array T) (a i : Nat) :
    Nat → Nat → Nat
  | 0, j => j
  | fuel + 1, j =>
    if i ≤ j ∧ ¬ less (aget xs j) (aget xs a) then partRightScan less xs a i fuel (j - 1) else j

/-- Go `sort` `partition`: the swapping loop after the first crossing pair
has been exchanged. -/
def partitionLoop [Inhabited T] (less : T → T → Bool) (a : Nat) :
    Nat → Array T → Nat → Nat → Array T × Nat × Nat
  | 0, xs, i, j => (xs, i, j)
  | fuel + 1, xs, i, j =>
    let i2 := partLeftScan less xs a j (xs.size + 1) i
    let j2 := partRightScan less xs a i2 (xs.size + 1) j
    if i2 > j2 then (xs, i2, j2)
    else partitionLoop less a fuel (aswap xs i2 j2) (i2 + 1) (j2 - 1)

/-- Go `sort`: `func partition(data lessSwap, a, b, pivot int) (newpivot
int, alreadyPartitioned bool)` — Hoare-style partition around the pivot
moved to position `a`, returning the final pivot position. -/
def partition [Inhabited T] (less : T → T → Bool) (xs : Array T) (a b pivot : Nat) :
    Array T × Nat × Bool :=
  let xs0 := aswap xs a pivot
  let i := partLeftScan less xs0 a (b - 1) (xs0.size + 1) (a + 1)
  let j := partRightScan less xs0 a i (xs0.size + 1) (b - 1)
  if i > j then
    (aswap xs0 j a, j, true)
  else
    let xs1 := aswap xs0 i j
    let (xs2, _, j2) := partitionLoop less a (xs1.size + 1) xs1 (i + 1) (j - 1)
    (aswap xs2 j2 a, j2, false)

/-- Go `sort` `partitionEqual`: `for i <= j && !data.Less(a, i) { i++ }`. -/
def peLeftScan [Inhabited T] (less : T → T → Bool) (xs : Array T) (a j : Nat) :
    Nat → Nat → Nat
  | 0, i => i
  | fuel + 1, i =>
    if i ≤ j ∧ ¬ less (aget xs a) (aget xs i) then peLeftScan less xs a j fuel (i + 1) else i

/-- Go `sort` `partitionEqual`: `for i <= j && data.Less(a, j) { j-- }`. -/
def peRightScan [Inhabited T] (less : T → T → Bool) (xs : Array T) (a i : Nat) :
    Nat → Nat → Nat
  | 0, j => j
  | fuel + 1, j =>
    if i ≤ j ∧ less (aget xs a) (aget xs j) then peRightScan less xs a i fuel (j - 1) else j

/-- Go `sort` `partitionEqual`: the swapping loop. -/
def partitionEqualLoop [Inhabited T] (less : T → T → Bool) (a : Nat) :
    Nat → Array T → Nat → Nat → Array T × Nat
  | 0, xs, i, _ => (xs, i)
  | fuel + 1, xs, i, j =>
    let i2 := peLeftScan less xs a j (xs.size + 1) i
    let j2 := peRightScan less xs a i2 (xs.size + 1) j
    if i2 > j2 then (xs, i2)
    else partitionEqualLoop less a fuel (aswap xs i2 j2) (i2 + 1) (j2 - 1)

/-- Go `sort`: `func partitionEqual(data lessSwap, a, b, pivot int)
(newpivot int)` — moves elements equal to the pivot to the front. -/
def partitionEqual [Inhabited T] (less : T → T → Bool) (xs : Array T) (a b pivot : Nat) :
    Array T × Nat :=
  let xs0 := aswap xs a pivot
  partitionEqualLoop less a (xs0.size + 1) xs0 (a + 1) (b - 1)

/-- Go `sort`: the body of `func pdqsort(data lessSwap, a, b, limit int)`,
with the iterative outer loop and both recursive calls expressed through
one fuel-indexed recursion (the interval shrinks at every step, so the fuel
passed by `pdqsort` is never exhausted). -/
def pdqsortLoop [Inhabited T] (less : T → T → Bool) :
    Nat → Array T → Nat → Nat → Nat → Bool → Bool → Array T
  | 0, xs, _, _, _, _, _ => xs
  | fuel + 1, xs, a, b, limit, wasBalanced, wasPartitioned =>
    let length := b - a
    if length ≤ 12 then insertionSort less xs a b
    else if limit = 0 then heapSort less xs a b
    else
      let (xs0, limit0) :=
        if ¬ wasBalanced then (breakPatterns xs a b, limit - 1) else (xs, limit)
      let (pivot, hint) := choosePivot less xs0 a b
      let (xs1, pivot1, hint1) :=
        if hint = SortedHint.decreasing then
          (reverseRange xs0 a b, (b - 1) - (pivot - a), SortedHint.increasing)
        else (xs0, pivot, hint)
      let (xs2, sorted) :=
        if wasBalanced ∧ wasPartitioned ∧ hint1 = SortedHint.increasing then
          partialInsertionSort less xs1 a b
        else (xs1, false)
      if sorted then xs2
      else if 0 < a ∧ ¬ less (aget xs2 (a - 1)) (aget xs2 pivot1) then
        let (xs3, mid) := partitionEqual less xs2 a b pivot1
        pdqsortLoop less fuel xs3 mid b limit0 wasBalanced wasPartitioned
      else
        let (xs3, mid, alreadyPartitioned) := partition less xs2 a b pivot1
        let wasBalanced2 := decide (min (mid - a) (b - mid) ≥ length / 8)
        if mid - a < b - mid then
          let xs4 := pdqsortLoop less fuel xs3 a mid limit0 true true
          pdqsortLoop less fuel xs4 (mid + 1) b limit0 wasBalanced2 alreadyPartitioned
        else
          let xs4 := pdqsortLoop less fuel xs3 (mid + 1) b limit0 true true
          pdqsortLoop less fuel xs4 a mid limit0 wasBalanced2 alreadyPartitioned

/-- Go `sort`: `func pdqsort(data lessSwap, a, b, limit int)` — enters the
loop with `wasBalanced = wasPartitioned = true`. -/
def pdqsort [Inhabited T] (less : T → T → Bool) (xs : Array T) (a b limit : Nat) : Array T :=
  pdqsortLoop less (b - a + limit + 2) xs a b limit true true

/-- Go standard library `sort.Slice(x, less)`: pdqsort of the whole slice
with `limit := bits.Len(uint(length))`. -/
def sortSliceArray [Inhabited T] (less : T → T → Bool) (xs : Array T) : Array T :=
  pdqsort less xs 0 xs.size (bitsLen xs.size)

/-- `sort.Slice` at the level of element sequences. -/
def sortSlice [Inhabited T] (less : T → T → Bool) (l : List T) : List T :=
  (sortSliceArray less l.toArray).toList

/-- Go: `func (q Query[T]) OrderBy(less func(a, b T) bool) Query[T]` —
copies `q.source` into a fresh slice and runs `sort.Slice` on the copy with
`less` applied to the current contents at the compared positions. -/
def Query.OrderBy [Inhabited T] (q : Query T) (less : T → T → Bool) : Query T :=
  ⟨sortSlice less q.source⟩

/-- Go: `func (q Query[T]) OrderByDescending(less func(a, b T) bool)
Query[T]` — `q.OrderBy` with the comparator `func(a, b T) bool { return
!less(a, b) }`. -/
def Query.OrderByDescending [Inhabited T] (q : Query T) (less : T → T → Bool) : Query T :=
  q.OrderBy fun a b => !less a b

/-- The spec side of the `OrderByDescending` refinement claim, written from
the spec text: `OrderByDescending(lessThan)` is defined as `OrderBy` using
the logical negation of `lessThan` as the comparator. -/
def orderByDescendingSpec [Inhabited T] (q : Query T) (less : T → T → Bool) : Query T :=
  q.OrderBy fun a b => !less a b

end GoLinq

namespace SliceModel

/-!
Memory model of Go slices, used for the frame-effect claim.  A slice value
is a descriptor `(arr, off, len, cap)` into a heap of backing arrays; `Mem`
is the heap (array contents, monomorphically `Int` elements).  `append`
writes into the backing array in place when the spare capacity suffices
(`len + k ≤ cap`) and allocates a fresh backing array otherwise — exactly
the Go semantics that the value-level list model above abstracts away.
-/

/-- A Go slice descriptor: backing-array index, offset, length, capacity. -/
structure GoSlice where
  arr : Nat
  off : Nat
  len : Nat
  cap : Nat
deriving DecidableEq

/-- The heap: contents of each allocated backing array. -/
abbrev Mem := List (List Int)

/-- Contents of backing array `a`. -/
def memArr (m : Mem) (a : Nat) : List Int :=
  m.getD a []

/-- The elements visible through slice `s`: `len` elements starting at
`off` of its backing array. -/
def memRead (m : Mem) (s : GoSlice) : List Int :=
  ((memArr m s.arr).drop s.off).take s.len

/-- Overwrite positions `i, i+1, ...` of a backing array with `vs`. -/
def writeAt (l : List Int) (i : Nat) (vs : List Int) : List Int :=
  l.take i ++ vs ++ l.drop (i + vs.length)

/-- Store `vs` into array `a` of the heap starting at position `i`. -/
def memWrite (m : Mem) (a i : Nat) (vs : List Int) : Mem :=
  m.set a (writeAt (memArr m a) i vs)

/-- Go `append(s, vs...)`: when `len(s) + len(vs) ≤ cap(s)` the elements are
written into the spare capacity of the existing backing array — visibly for
every other slice sharing that array — and only otherwise is a fresh,
larger backing array allocated (doubling growth for small slices, as in
`runtime.growslice`; the exact capacity chosen only affects later appends,
not any read). -/
def goAppend (m : Mem) (s : GoSlice) (vs : List Int) : Mem × GoSlice :=
  if s.len + vs.length ≤ s.cap then
    (memWrite m s.arr (s.off + s.len) vs, ⟨s.arr, s.off, s.len + vs.length, s.cap⟩)
  else
    let need := s.len + vs.length
    let newcap := if need > 2 * s.cap then need else 2 * s.cap
    let contents := memRead m s ++ vs ++ List.replicate (newcap - need) 0
    (m ++ [contents], ⟨m.length, 0, need, newcap⟩)

/-- The Go nil slice (`var result []T`): length and capacity `0`; its array
index is irrelevant because reading it yields `[]` and appending to it
always allocates. -/
def nilSlice : GoSlice :=
  ⟨0, 0, 0, 0⟩

/-- `Query[T]` in the memory model: the wrapped slice descriptor. -/
structure QueryM where
  source : GoSlice
deriving DecidableEq

/-- `From` in the memory model: wraps the descriptor as-is (no copy). -/
def fromM (s : GoSlice) : QueryM :=
  ⟨s⟩

/-- `Query.Take` in the memory model: clamp `n` to the length, then
`q.source[:n]` — same backing array, same offset and capacity, shorter
length.  (Only the in-range `n ≥ 0` case is needed here.) -/
def takeM (q : QueryM) (n : Nat) : QueryM :=
  let n2 := if n > q.source.len then q.source.len else n
  ⟨⟨q.source.arr, q.source.off, n2, q.source.cap⟩⟩

/-- `Query.ToSlice` in the memory model: the descriptor itself (the caller
receives an alias of the query's backing storage). -/
def toSliceM (q : QueryM) : GoSlice :=
  q.source

/-- The loop of `Query.Distinct` in the memory model: `result` starts as
the nil slice and grows by `append` of each non-duplicate item. -/
def distinctLoopM (equal : Int → Int → Bool) : List Int → Mem → GoSlice → Mem × GoSlice
  | [], m, result => (m, result)
  | item :: rest, m, result =>
    if (memRead m result).any fun r => equal item r then
      distinctLoopM equal rest m result
    else
      let (m2, result2) := goAppend m result [item]
      distinctLoopM equal rest m2 result2

/-- `Query.Distinct` in the memory model. -/
def distinctM (equal : Int → Int → Bool) (m : Mem) (q : QueryM) : Mem × QueryM :=
  let (m2, result) := distinctLoopM equal (memRead m q.source) m nilSlice
  (m2, ⟨result⟩)

/-- Go: `func (q Query[T]) Union(other []T, equal func(a, b T) bool)
Query[T]` in the memory model — `combined := append(q.source, other...)`
followed by `From(combined).Distinct(equal)`.  The `append` is the step
that can write into a backing array the caller owns. -/
def unionM (equal : Int → Int → Bool) (m : Mem) (q : QueryM) (other : GoSlice) :
    Mem × QueryM :=
  let (m2, combined) := goAppend m q.source (memRead m other)
  distinctM equal m2 (fromM combined)

end SliceModel

namespace GoLinq

variable {T : Type}

/-- The failing input for the `OrderBy` stability claim: thirteen elements
compared by their hundreds digit (`a / 100 < b / 100`), so elements with
the same hundreds digit are tied and their final two digits record the
original order.  Thirteen elements force `pdqsort` past its insertion-sort
cutoff (`length > 12`) into an unstable partition step. -/
def C2input : List Nat :=
  [200, 201, 202, 203, 100, 101, 102, 103, 300, 301, 302, 303, 204]

/-!  Helper lemmas about `WhereGroup`, shared by several theorems below. -/

/-- `includeItem` of an `And` group is the conjunction of its predicates. -/
theorem includeItem_and (ps : List (T → Bool)) (item : T) :
    includeItem ⟨ps, And⟩ item = ps.all fun pred => pred item :=
  rfl

/-- `includeItem` of an `Or` group is the disjunction of its predicates. -/
theorem includeItem_or (ps : List (T → Bool)) (item : T) :
    includeItem ⟨ps, Or⟩ item = ps.any fun pred => pred item :=
  rfl

/-- `WhereGroup` with an empty `And` group returns the query unchanged. -/
theorem whereGroup_and_nil (q : Query T) : q.WhereGroup ⟨[], And⟩ = q := by
  obtain ⟨src⟩ := q
  show Query.mk (src.filter fun _ => true) = Query.mk src
  rw [List.filter_true]

/-- `WhereGroup` with an empty `Or` group returns the empty query. -/
theorem whereGroup_or_nil (q : Query T) : q.WhereGroup ⟨[], Or⟩ = From [] := by
  obtain ⟨src⟩ := q
  show Query.mk (src.filter fun _ => false) = Query.mk []
  rw [List.filter_false]

/-- Filtering by a conjunction equals filtering twice. -/
theorem filter_and_split (p f : T → Bool) (l : List T) :
    (l.filter fun x => p x && f x) = (l.filter p).filter f := by
  induction l with
  | nil => rfl
  | cons x xs ih => cases hp : p x <;> cases hf : f x <;>
      simp [List.filter_cons, hp, hf, ih]

/-- Peeling one predicate off an `And` group is a `Where` step. -/
theorem whereGroup_and_cons (q : Query T) (p : T → Bool) (ps : List (T → Bool)) :
    q.WhereGroup ⟨p :: ps, And⟩ = (q.Where p).WhereGroup ⟨ps, And⟩ := by
  obtain ⟨src⟩ := q
  show Query.mk (src.filter fun x => p x && ps.all fun pred => pred x)
      = Query.mk ((src.filter fun x => p x && true).filter fun x => ps.all fun pred => pred x)
  simp only [Bool.and_true]
  rw [filter_and_split]

end GoLinq

namespace GoLinq

variable {T : Type}

/-- Claim C5: for every sequence and predicate list `[p1,...,pn]`,
`WhereGroup` with logical operator `And` returns the same sequence as
chaining `Where(p1).Where(p2)...Where(pn)`; in particular `Where(p)` equals
`WhereGroup` with the single-predicate `And` group `[p]`. -/
theorem whereGroup_and_eq_chained_where (q : Query T) (ps : List (T → Bool)) :
    q.WhereGroup ⟨ps, And⟩ = ps.foldl (fun acc p => acc.Where p) q
    ∧ ∀ p : T → Bool, q.Where p = q.WhereGroup ⟨[p], And⟩ := by
  refine ⟨?_, fun p => rfl⟩
  induction ps generalizing q with
  | nil => exact whereGroup_and_nil q
  | cons p ps ih =>
    rw [List.foldl_cons, whereGroup_and_cons]
    exact ih (q.Where p)

/-- Claim C6: `WhereGroup` with an empty predicate list and operator `And`
returns all elements (vacuously true), and with operator `Or` returns the
empty sequence (vacuously false). -/
theorem whereGroup_empty_predicates (q : Query T) :
    q.WhereGroup ⟨[], And⟩ = q ∧ q.WhereGroup ⟨[], Or⟩ = From [] :=
  ⟨whereGroup_and_nil q, whereGroup_or_nil q⟩

/-- Claim C9: `WhereGroup` with a `LogicalOperator` value that is neither
`And` nor `Or` returns the empty sequence, whatever the predicates say. -/
theorem whereGroup_unknown_operator_empty (q : Query T) (ps : List (T → Bool))
    (op : LogicalOperator) (h1 : op ≠ And) (h2 : op ≠ Or) :
    q.WhereGroup ⟨ps, op⟩ = From [] := by
  obtain ⟨src⟩ := q
  have hfun : (includeItem (⟨ps, op⟩ : PredicateGroup T)) = fun _ => false := by
    funext item
    show includeItem ⟨ps, op⟩ item = false
    unfold includeItem
    rw [if_neg h1, if_neg h2]
  show Query.mk (src.filter (includeItem ⟨ps, op⟩)) = Query.mk []
  rw [hfun, List.filter_false]

/-- Witness for claim C9 at the concrete operator value `2`. -/
theorem whereGroup_unknown_operator_empty_witness :
    (From ([3] : List Int)).WhereGroup ⟨[fun _ => true], 2⟩ = From [] :=
  whereGroup_unknown_operator_empty (From [3]) [fun _ => true] 2 (by decide) (by decide)

/-- The loop of `Except` is a `filter` by absence from `other`. -/
theorem exceptLoop_eq_filter (equal : T → T → Bool) (other l : List T) :
    exceptLoop equal other l = l.filter fun item => !(other.any fun o => equal item o) := by
  induction l with
  | nil => rfl
  | cons x xs ih =>
    cases hx : other.any fun o => equal x o <;>
      simp [exceptLoop, List.filter_cons, hx, ih]

/-- Claim C4: `Except(other, equal)` keeps exactly the elements of the
current sequence with no `equal` counterpart in `other`, preserves their
original order (the result is a sublist), and retains every duplicate
occurrence (the multiplicity of every kept element is unchanged — no
deduplication is applied). -/
theorem except_filters_without_dedup [DecidableEq T] (q : Query T) (other : List T)
    (equal : T → T → Bool) :
    ((q.Except other equal).ToSlice
        = q.source.filter fun item => !(other.any fun o => equal item o))
    ∧ List.Sublist ((q.Except other equal).ToSlice) q.source
    ∧ ∀ x, (other.any fun o => equal x o) = false →
        ((q.Except other equal).ToSlice).count x = q.source.count x := by
  have he : (q.Except other equal).ToSlice
      = q.source.filter fun item => !(other.any fun o => equal item o) :=
    exceptLoop_eq_filter equal other q.source
  refine ⟨he, ?_, ?_⟩
  · rw [he]
    exact List.filter_sublist _
  · intro x hx
    rw [he, List.count_filter (by rw [hx]; rfl)]

/-- Claim C8: `Min`, `Max` and `Sum` applied to an empty sequence all
return the sentinel `0`; they are total (no error is raised). -/
theorem min_max_sum_empty_zero (q : Query T) (selector : T → Int) (h : q.source = []) :
    q.Min selector = 0 ∧ q.Max selector = 0 ∧ q.Sum selector = 0 := by
  obtain ⟨src⟩ := q
  subst h
  exact ⟨rfl, rfl, rfl⟩

/-- Witness for claim C8 at the empty integer sequence. -/
theorem min_max_sum_empty_zero_witness :
    (From ([] : List Int)).Min (fun v => v) = 0
    ∧ (From ([] : List Int)).Max (fun v => v) = 0
    ∧ (From ([] : List Int)).Sum (fun v => v) = 0 :=
  min_max_sum_empty_zero (From []) (fun v => v) rfl

end GoLinq

namespace GoLinq

variable {T : Type}

/-- The running minimum never exceeds its initial value and is a lower
bound of the selected values of the traversed items. -/
theorem minLoop_le (selector : T → Int) (l : List T) :
    ∀ m : Int, minLoop selector m l ≤ m ∧ ∀ y ∈ l, minLoop selector m l ≤ selector y := by
  induction l with
  | nil => intro m; simp [minLoop]
  | cons x xs ih =>
    intro m
    have hm := ih (if selector x < m then selector x else m)
    constructor
    · refine le_trans hm.1 ?_
      split <;> omega
    · intro y hy
      rcases List.mem_cons.mp hy with hy | hy
      · subst hy
        refine le_trans hm.1 ?_
        split <;> omega
      · exact hm.2 y hy
  
/-- The running minimum is either its initial value or a selected value of
some traversed item. -/
theorem minLoop_mem (selector : T → Int) (l : List T) :
    ∀ m : Int, minLoop selector m l = m ∨ ∃ x ∈ l, minLoop selector m l = selector x := by
  induction l with
  | nil => intro m; exact .inl rfl
  | cons x xs ih =>
    intro m
    show minLoop selector (if selector x < m then selector x else m) xs = m ∨ _
    rcases ih (if selector x < m then selector x else m) with h | ⟨y, hy, h⟩
    · by_cases hx : selector x < m
      · right
        refine ⟨x, List.mem_cons_self x xs, ?_⟩
        show minLoop selector (if selector x < m then selector x else m) xs = selector x
        rw [h, if_pos hx]
      · left
        show minLoop selector (if selector x < m then selector x else m) xs = m
        rw [h, if_neg hx]
    · right
      exact ⟨y, List.mem_cons_of_mem x hy, h⟩

/-- The running maximum never falls below its initial value and is an
upper bound of the selected values of the traversed items. -/
theorem maxLoop_ge (selector : T → Int) (l : List T) :
    ∀ m : Int, m ≤ maxLoop selector m l ∧ ∀ y ∈ l, selector y ≤ maxLoop selector m l := by
  induction l with
  | nil => intro m; simp [maxLoop]
  | cons x xs ih =>
    intro m
    have hm := ih (if selector x > m then selector x else m)
    constructor
    · refine le_trans ?_ hm.1
      split <;> omega
    · intro y hy
      rcases List.mem_cons.mp hy with hy | hy
      · subst hy
        refine le_trans ?_ hm.1
        split <;> omega
      · exact hm.2 y hy

/-- The running maximum is either its initial value or a selected value of
some traversed item. -/
theorem maxLoop_mem (selector : T → Int) (l : List T) :
    ∀ m : Int, maxLoop selector m l = m ∨ ∃ x ∈ l, maxLoop selector m l = selector x := by
  induction l with
  | nil => intro m; exact .inl rfl
  | cons x xs ih =>
    intro m
    show maxLoop selector (if selector x > m then selector x else m) xs = m ∨ _
    rcases ih (if selector x > m then selector x else m) with h | ⟨y, hy, h⟩
    · by_cases hx : selector x > m
      · right
        refine ⟨x, List.mem_cons_self x xs, ?_⟩
        show maxLoop selector (if selector x > m then selector x else m) xs = selector x
        rw [h, if_pos hx]
      · left
        show maxLoop selector (if selector x > m then selector x else m) xs = m
        rw [h, if_neg hx]
    · right
      exact ⟨y, List.mem_cons_of_mem x hy, h⟩

/-- Claim C10: on a non-empty sequence, `Min(selector)` returns the least
selected value and `Max(selector)` the greatest: each equals
`selector x` for some element `x` of the sequence, and each is a lower
(respectively upper) bound of `selector y` over all elements `y`. -/
theorem min_max_correct_nonempty (q : Query T) (selector : T → Int) (h : q.source ≠ []) :
    ((∃ x ∈ q.source, q.Min selector = selector x)
      ∧ ∀ y ∈ q.source, q.Min selector ≤ selector y)
    ∧ ((∃ x ∈ q.source, q.Max selector = selector x)
      ∧ ∀ y ∈ q.source, selector y ≤ q.Max selector) := by
  obtain ⟨src⟩ := q
  match src, h with
  | x :: rest, _ =>
    have hmin : Query.Min ⟨x :: rest⟩ selector = minLoop selector (selector x) rest := rfl
    have hmax : Query.Max ⟨x :: rest⟩ selector = maxLoop selector (selector x) rest := rfl
    refine ⟨⟨?_, ?_⟩, ?_, ?_⟩
    · rw [hmin]
      rcases minLoop_mem selector rest (selector x) with hm | ⟨y, hy, hm⟩
      · exact ⟨x, List.mem_cons_self x rest, hm⟩
      · exact ⟨y, List.mem_cons_of_mem x hy, hm⟩
    · intro y hy
      rw [hmin]
      rcases List.mem_cons.mp hy with hy | hy
      · subst hy
        exact (minLoop_le selector rest (selector y)).1
      · exact (minLoop_le selector rest (selector x)).2 y hy
    · rw [hmax]
      rcases maxLoop_mem selector rest (selector x) with hm | ⟨y, hy, hm⟩
      · exact ⟨x, List.mem_cons_self x rest, hm⟩
      · exact ⟨y, List.mem_cons_of_mem x hy, hm⟩
    · intro y hy
      rw [hmax]
      rcases List.mem_cons.mp hy with hy | hy
      · subst hy
        exact (maxLoop_ge selector rest (selector y)).1
      · exact (maxLoop_ge selector rest (selector x)).2 y hy

/-- Witness for claim C10 at the sequence `[3, 1, 2]` with the identity
selector. -/
theorem min_max_correct_nonempty_witness :
    ((∃ x ∈ (From ([3, 1, 2] : List Int)).source,
        (From ([3, 1, 2] : List Int)).Min (fun v => v) = x)
      ∧ ∀ y ∈ (From ([3, 1, 2] : List Int)).source,
          (From ([3, 1, 2] : List Int)).Min (fun v => v) ≤ y)
    ∧ ((∃ x ∈ (From ([3, 1, 2] : List Int)).source,
        (From ([3, 1, 2] : List Int)).Max (fun v => v) = x)
      ∧ ∀ y ∈ (From ([3, 1, 2] : List Int)).source,
          y ≤ (From ([3, 1, 2] : List Int)).Max (fun v => v)) :=
  min_max_correct_nonempty (From [3, 1, 2]) (fun v => v) (by decide)

end GoLinq

namespace GoLinq

variable {T : Type}

/-- Counterexample to claim C1 as stated: `Skip(-1)` and `Take(-1)` on the
one-element sequence `[0]` do not return the clamped results the claim
requires — the Go slicing expressions `q.source[-1:]` and `q.source[:-1]`
panic with a slice-bounds error (modelled by `none`). -/
theorem skip_take_negative_panic :
    (From ([0] : List Int)).Skip (-1) = none
    ∧ (From ([0] : List Int)).Take (-1) = none := by
  decide

/-- Claim C1 amended: `Skip` and `Take` clamp only the upper side.
`Skip(0)` returns the sequence unchanged and `Skip(n)` with
`n ≥ length` returns the empty sequence; `Take(0)` returns the empty
sequence and `Take(n)` with `n > length` returns the whole sequence; every
`n ≥ 0` succeeds (negative `n` panics on the slicing expression). -/
theorem skip_take_clamp_nonneg (q : Query T) (n : Int) :
    q.Skip 0 = some q
    ∧ q.Take 0 = some (From [])
    ∧ ((q.source.length : Int) ≤ n → q.Skip n = some (From []))
    ∧ ((q.source.length : Int) < n → q.Take n = some q)
    ∧ (0 ≤ n → (q.Skip n).isSome ∧ (q.Take n).isSome) := by
  obtain ⟨src⟩ := q
  have hskip : ∀ k : Int, Query.Skip ⟨src⟩ k
      = if k ≥ (src.length : Int) then some (From []) else (goSliceFrom src k).map From :=
    fun k => rfl
  have htake : ∀ k : Int, Query.Take ⟨src⟩ k
      = (goSliceTo src (if k > (src.length : Int) then (src.length : Int) else k)).map From :=
    fun k => rfl
  refine ⟨?_, ?_, ?_, ?_, ?_⟩
  · rw [hskip 0]
    rcases src with _ | ⟨x, rest⟩
    · rw [if_pos (by simp)]
      rfl
    · rw [if_neg (by simp only [List.length_cons]; omega)]
      unfold goSliceFrom
      rw [if_pos (by simp only [List.length_cons]; omega)]
      rfl
  · rw [htake 0, if_neg (by omega)]
    unfold goSliceTo
    rw [if_pos (by omega)]
    rfl
  · intro hn
    replace hn : (src.length : Int) ≤ n := hn
    rw [hskip n, if_pos (by omega)]
  · intro hn
    replace hn : (src.length : Int) < n := hn
    rw [htake n, if_pos (by omega)]
    unfold goSliceTo
    rw [if_pos (by omega)]
    show some (From (src.take ((src.length : Int)).toNat)) = some ⟨src⟩
    rw [Int.toNat_ofNat, List.take_length]
    rfl
  · intro hn
    constructor
    · rw [hskip n]
      by_cases hge : n ≥ (src.length : Int)
      · rw [if_pos hge]
        rfl
      · rw [if_neg hge]
        unfold goSliceFrom
        rw [if_pos (by omega)]
        rfl
    · rw [htake n]
      by_cases hgt : n > (src.length : Int)
      · rw [if_pos hgt]
        unfold goSliceTo
        rw [if_pos (by omega)]
        rfl
      · rw [if_neg hgt]
        unfold goSliceTo
        rw [if_pos (by omega)]
        rfl

/-- Witness for the amended claim C1 at the sequence `[5, 6]` with
`n = 3`. -/
theorem skip_take_clamp_nonneg_witness :
    (From ([5, 6] : List Int)).Skip 3 = some (From [])
    ∧ (From ([5, 6] : List Int)).Take 3 = some (From [5, 6]) :=
  ⟨(skip_take_clamp_nonneg (From [5, 6]) 3).2.2.1 (by decide),
   (skip_take_clamp_nonneg (From [5, 6]) 3).2.2.2.1 (by decide)⟩

end GoLinq

namespace GoLinq

variable {T : Type}

/-- Claim C7: `OrderByDescending(less)` returns exactly the sequence of
`OrderBy` run with the negated comparator `fun a b => !less a b` — the
code implements precisely the spec's derivation, so the two definitions
coincide. -/
theorem orderByDescending_eq_negated_orderBy [Inhabited T] (q : Query T)
    (less : T → T → Bool) :
    q.OrderByDescending less = orderByDescendingSpec q less :=
  rfl

set_option maxRecDepth 100000 in
set_option maxHeartbeats 1000000 in
/-- Claim C2, evaluated at the failing input: `OrderBy` (via the unstable
`sort.Slice` pdqsort) sorts `C2input` by hundreds digit into the listed
output, in which the tied elements `103` and `101` (equal hundreds digit,
neither less than the other) appear in the opposite of their original
relative order — so `OrderBy` is a sorted permutation here but not a
stable one. -/
theorem orderBy_unstable_on_ties :
    (((From C2input).OrderBy fun a b => a / 100 < b / 100).ToSlice
        = [100, 103, 102, 101, 203, 200, 202, 201, 204, 300, 301, 302, 303])
    ∧ C2input.indexOf 101 < C2input.indexOf 103
    ∧ [100, 103, 102, 101, 203, 200, 202, 201, 204, 300, 301, 302, 303].indexOf 103
        < [100, 103, 102, 101, 203, 200, 202, 201, 204, 300, 301, 302, 303].indexOf 101
    ∧ ¬ 101 / 100 < 103 / 100
    ∧ ¬ 103 / 100 < 101 / 100 := by
  decide

end GoLinq

namespace SliceModel

set_option maxRecDepth 10000 in
/-- Claim C3, evaluated at the failing input in the slice memory model:
with the caller's slice `xs = [1, 2, 3]` (backing array `0`, capacity `3`)
and `other = [9]`, the chain `From(xs).Take(2).Union(other, ==)` makes
`Union`'s `append(q.source, other...)` write `9` into the spare capacity
of the caller's backing array: afterwards the caller reads `[1, 2, 9]`
through `xs`, not the original `[1, 2, 3]` — a transformation mutated a
caller-owned slice in place. -/
theorem union_mutates_caller_array :
    memRead [[1, 2, 3], [9]] ⟨0, 0, 3, 3⟩ = [1, 2, 3]
    ∧ memRead
        (unionM (fun a b => a == b) [[1, 2, 3], [9]]
          (takeM (fromM ⟨0, 0, 3, 3⟩) 2) ⟨1, 0, 1, 1⟩).1
        ⟨0, 0, 3, 3⟩ = [1, 2, 9]
    ∧ memRead
        (unionM (fun a b => a == b) [[1, 2, 3], [9]]
          (takeM (fromM ⟨0, 0, 3, 3⟩) 2) ⟨1, 0, 1, 1⟩).1
        (toSliceM (unionM (fun a b => a == b) [[1, 2, 3], [9]]
          (takeM (fromM ⟨0, 0, 3, 3⟩) 2) ⟨1, 0, 1, 1⟩).2) = [1, 2, 9] := by
  decide

end SliceModel
